import Mathlib

/-!
Verification of `fix_html.py`, a one-shot text patcher.

The program reads an HTML file, applies two textual transformations and
writes the result back:

1. CSS step: `re.sub(r'(\.historyItem\{[^}]+\})', r'\1' + css_to_add, content)`
   scans the text left to right for non-overlapping matches of the pattern
   ".historyItem{" followed by one or more non-"}" characters and a "}",
   and appends the fixed CSS block after each match.
2. Script step: `content.replace(old, old + js_to_add)` replaces every
   non-overlapping occurrence of the literal
   `row.className = "historyItem";` with itself followed by the fixed
   script block.

Text is modelled as `List Char`.  Both re.sub with this pattern and
str.replace are instances of one scanning scheme `scanIns`: walk the text
left to right; when the matcher fires at the current position, emit the
matched segment followed by the fixed added block and resume after the
matched segment (the inserted block is not rescanned); otherwise emit one
character and advance by one.  `scanIns` takes a fuel argument so the
recursion is structural; each wrapper passes the text's length, which is
always enough fuel because every step consumes at least one character.

The read/transform/write pipeline is embedded as a function on an
explicit file-system state (`FsState`), with I/O failure as `Except`.
-/

namespace FixHtml

/-- Text of the Python `css_to_add` constant (lines 7-10 of fix_html.py). -/
def css_to_add : List Char :=
  "\n    .historyItem.older\x7b\n      background: #f8f9fa;\n    \x7d".data

/-- Text of the Python `js_to_add` constant (lines 19-24 of fix_html.py). -/
def js_to_add : List Char :=
  "\n      \n      const ageHours = it.since ? (Date.now() - new Date(it.since).getTime()) / (1000 * 60 * 60) : 0;\n      if (ageHours > 24) \x7b\n        row.classList.add(\"older\");\n      \x7d".data

/-- Literal head of the regex `(\.historyItem\{[^}]+\})`: the text ".historyItem{". -/
def cssPat : List Char := ".historyItem\x7b".data

/-- The literal searched by the script step: `row.className = "historyItem";`. -/
def oldLit : List Char := "row.className = \"historyItem\";".data

/-- Matcher for the regex `\.historyItem\{[^}]+\}` at the start of `l`:
if `l` begins with ".historyItem{" followed by at least one non-"}"
character and then a "}", return the matched segment (up to and including
that first "}") and the remainder; otherwise `none`.  This is exactly the
(greedy, deterministic) behaviour of the Python pattern at one position. -/
def matchCssAt (l : List Char) : Option (List Char × List Char) :=
  if l.take 13 = cssPat then
    match (l.drop 13).takeWhile (fun c => c != '\x7d'),
          (l.drop 13).dropWhile (fun c => c != '\x7d') with
    | b :: bs, '\x7d' :: rest => some (cssPat ++ (b :: bs) ++ ['\x7d'], rest)
    | _, _ => none
  else none

/-- Matcher for the literal `row.className = "historyItem";` at the start of `l`. -/
def matchJsAt (l : List Char) : Option (List Char × List Char) :=
  if l.take oldLit.length = oldLit then some (oldLit, l.drop oldLit.length) else none

/-- Left-to-right scan inserting `add` after every non-overlapping match of
`f`, resuming after the matched segment; `fuel` bounds the recursion. -/
def scanIns (f : List Char → Option (List Char × List Char)) (add : List Char) :
    Nat → List Char → List Char
  | 0, l => l
  | _ + 1, [] => []
  | fuel + 1, c :: cs =>
    match f (c :: cs) with
    | some (m, rest) => m ++ add ++ scanIns f add fuel rest
    | none => c :: scanIns f add fuel cs

/-- Run the scan with fuel equal to the text's length (always sufficient). -/
def idealIns (f : List Char → Option (List Char × List Char)) (add : List Char)
    (l : List Char) : List Char :=
  scanIns f add l.length l

/-- The CSS step: `content = re.sub(pattern, r'\1' + css_to_add, content)`. -/
def cssStep (content : List Char) : List Char := idealIns matchCssAt css_to_add content

/-- The script step:
`content = content.replace('row.className = "historyItem";', 'row.className = "historyItem";' + js_to_add)`. -/
def jsStep (content : List Char) : List Char := idealIns matchJsAt js_to_add content

/-- The whole in-memory transformation of fix_html.py: CSS step then script step. -/
def transform (content : List Char) : List Char := jsStep (cssStep content)

/-- A well-formed `.historyItem{...}` block with body `b`. -/
def cssBlock (b : List Char) : List Char := cssPat ++ b ++ ['\x7d']

/-- The confirmation line printed on success (line 32 of fix_html.py). -/
def confirmMsg : List Char := "Changes applied successfully".data

/-- State of the target file: `content = none` means the file cannot be read
(absent, unreadable, undecodable); `writable` says whether a write succeeds. -/
structure FsState where
  content : Option (List Char)
  writable : Bool

/-- The whole program: read the file (an unreadable file raises an I/O error
before anything else happens, leaving the state unchanged), transform the
text in memory, write it back (an unwritable file raises an I/O error), and
print the confirmation message.  Returns the new file state together with
either the stdout text or an I/O error. -/
def runFix (s : FsState) : FsState × Except Unit (List Char) :=
  match s.content with
  | none => (s, Except.error ())
  | some c =>
    if s.writable then
      (FsState.mk (some (transform c)) s.writable, Except.ok confirmMsg)
    else (s, Except.error ())

/-- Join a list of segments with a separator between consecutive segments. -/
def joinWith (sep : List Char) : List (List Char) → List Char
  | [] => []
  | [p] => p
  | p :: q :: ps => p ++ sep ++ joinWith sep (q :: ps)

/-- A text decomposed around its `.historyItem{...}` blocks: each pair is a
context segment followed by a block body, and a trailing segment closes the
text. -/
def cssJoin : List (List Char × List Char) → List Char → List Char
  | [], tail => tail
  | (p, b) :: rest, tail => p ++ cssBlock b ++ cssJoin rest tail

/-- The same decomposition with the fixed CSS block inserted immediately
after every `.historyItem{...}` block. -/
def cssJoinIns : List (List Char × List Char) → List Char → List Char
  | [], tail => tail
  | (p, b) :: rest, tail => p ++ cssBlock b ++ css_to_add ++ cssJoinIns rest tail

/-- The decomposition is exact: each block body is nonempty and non-nested,
no match of the pattern starts inside a context segment (relative to the
actual text that follows it), and no match occurs in the trailing segment —
so the listed blocks are precisely the matches found by the scan. -/
def CssSegOk : List (List Char × List Char) → List Char → Prop
  | [], tail => ∀ j, matchCssAt (tail.drop j) = none
  | (p, b) :: rest, tail =>
      (∀ j, j < p.length →
        matchCssAt ((p ++ (cssBlock b ++ cssJoin rest tail)).drop j) = none) ∧
      b ≠ [] ∧ (∀ c ∈ b, c ≠ '\x7d') ∧ CssSegOk rest tail

/-- A matcher is sound when a match splits the input and consumes at least
one character. -/
def Sound (f : List Char → Option (List Char × List Char)) : Prop :=
  ∀ l m rest, f l = some (m, rest) → l = m ++ rest ∧ 1 ≤ m.length

/-! Generic facts about the scanning scheme. -/

theorem scanIns_nil (f : List Char → Option (List Char × List Char)) (add : List Char) :
    ∀ fuel, scanIns f add fuel [] = [] := by
  intro fuel
  cases fuel <;> rfl

theorem scanIns_fuel (f : List Char → Option (List Char × List Char)) (add : List Char)
    (hf : Sound f) :
    ∀ fuel₁ fuel₂ l, l.length ≤ fuel₁ → l.length ≤ fuel₂ →
      scanIns f add fuel₁ l = scanIns f add fuel₂ l := by
  intro fuel₁
  induction fuel₁ with
  | zero =>
    intro fuel₂ l h1 _
    have hl : l = [] := List.eq_nil_of_length_eq_zero (Nat.le_zero.mp h1)
    subst hl
    rw [scanIns_nil, scanIns_nil]
  | succ n ih =>
    intro fuel₂ l h1 h2
    cases l with
    | nil => rw [scanIns_nil, scanIns_nil]
    | cons c cs =>
      cases fuel₂ with
      | zero => simp at h2
      | succ n₂ =>
        simp only [scanIns]
        cases hm : f (c :: cs) with
        | none =>
          simp only [List.length_cons, Nat.add_le_add_iff_right] at h1 h2
          show c :: scanIns f add n cs = c :: scanIns f add n₂ cs
          rw [ih n₂ cs h1 h2]
        | some pr =>
          obtain ⟨m, rest⟩ := pr
          obtain ⟨hl_eq, hm1⟩ := hf _ _ _ hm
          have hlen : rest.length ≤ cs.length := by
            have := congrArg List.length hl_eq
            simp only [List.length_cons, List.length_append] at this
            omega
          simp only [List.length_cons, Nat.add_le_add_iff_right] at h1 h2
          show m ++ add ++ scanIns f add n rest = m ++ add ++ scanIns f add n₂ rest
          rw [ih n₂ rest (hlen.trans h1) (hlen.trans h2)]

theorem idealIns_nil (f : List Char → Option (List Char × List Char)) (add : List Char) :
    idealIns f add [] = [] := rfl

theorem idealIns_match (f : List Char → Option (List Char × List Char)) (add : List Char)
    (hf : Sound f) {l m rest : List Char} (h : f l = some (m, rest)) :
    idealIns f add l = m ++ add ++ idealIns f add rest := by
  obtain ⟨hl_eq, hm1⟩ := hf _ _ _ h
  cases l with
  | nil =>
    exfalso
    have := congrArg List.length hl_eq
    simp only [List.length_nil, List.length_append] at this
    omega
  | cons c cs =>
    have hlen : rest.length ≤ cs.length := by
      have := congrArg List.length hl_eq
      simp only [List.length_cons, List.length_append] at this
      omega
    show scanIns f add (cs.length + 1) (c :: cs) = _
    simp only [scanIns, h]
    rw [scanIns_fuel f add hf cs.length rest.length rest hlen (Nat.le_refl _)]
    rfl

theorem idealIns_none (f : List Char → Option (List Char × List Char)) (add : List Char)
    {c : Char} {cs : List Char} (h : f (c :: cs) = none) :
    idealIns f add (c :: cs) = c :: idealIns f add cs := by
  show scanIns f add (cs.length + 1) (c :: cs) = _
  simp only [scanIns, h]
  rfl

theorem idealIns_noMatch (f : List Char → Option (List Char × List Char)) (add : List Char)
    {l : List Char} (h : ∀ j, f (l.drop j) = none) :
    idealIns f add l = l := by
  induction l with
  | nil => rfl
  | cons c cs ih =>
    rw [idealIns_none f add (h 0), ih (fun j => h (j + 1))]

theorem idealIns_skip (f : List Char → Option (List Char × List Char)) (add : List Char)
    {u r : List Char} (h : ∀ j, j < u.length → f ((u ++ r).drop j) = none) :
    idealIns f add (u ++ r) = u ++ idealIns f add r := by
  induction u with
  | nil => rfl
  | cons c u' ih =>
    have h0 : f (c :: (u' ++ r)) = none := h 0 (by simp)
    rw [List.cons_append, idealIns_none f add h0,
      ih (fun j hj => h (j + 1) (by simpa using hj))]
    rfl

theorem sublist_idealIns (f : List Char → Option (List Char × List Char)) (add : List Char)
    (hf : Sound f) :
    ∀ n l, l.length ≤ n → List.Sublist l (idealIns f add l) := by
  intro n
  induction n with
  | zero =>
    intro l hl
    have h : l = [] := List.eq_nil_of_length_eq_zero (Nat.le_zero.mp hl)
    subst h
    exact List.Sublist.refl []
  | succ n ih =>
    intro l hl
    cases l with
    | nil => exact List.Sublist.refl []
    | cons c cs =>
      cases hm : f (c :: cs) with
      | none =>
        rw [idealIns_none f add hm]
        exact List.Sublist.cons₂ c (ih cs (by simpa using hl))
      | some pr =>
        obtain ⟨m, rest⟩ := pr
        obtain ⟨hl_eq, hm1⟩ := hf _ _ _ hm
        have hlen : rest.length ≤ n := by
          have := congrArg List.length hl_eq
          simp only [List.length_cons, List.length_append] at this
          simp only [List.length_cons] at hl
          omega
        rw [idealIns_match f add hf hm, hl_eq, List.append_assoc]
        exact List.Sublist.append_left
          ((ih rest hlen).trans (List.sublist_append_right add _)) m

/-! Facts about the two matchers. -/

theorem matchJs_sound : Sound matchJsAt := by
  intro l m rest h
  unfold matchJsAt at h
  by_cases htake : l.take oldLit.length = oldLit
  · rw [if_pos htake] at h
    simp only [Option.some.injEq, Prod.mk.injEq] at h
    obtain ⟨hm, hrest⟩ := h
    subst hm
    subst hrest
    refine ⟨?_, by decide⟩
    conv_lhs => rw [← List.take_append_drop oldLit.length l, htake]
  · rw [if_neg htake] at h
    exact Option.noConfusion h

theorem matchJs_at_lit (r : List Char) : matchJsAt (oldLit ++ r) = some (oldLit, r) := by
  unfold matchJsAt
  rw [List.take_left' rfl, if_pos rfl, List.drop_left' rfl]

theorem matchJs_none {l : List Char} (h : l.take oldLit.length ≠ oldLit) :
    matchJsAt l = none := by
  unfold matchJsAt
  rw [if_neg h]

theorem matchJs_nil : matchJsAt [] = none := by decide

theorem jsNoMatchAll (l : List Char) (h : ∀ j, j < l.length → matchJsAt (l.drop j) = none) :
    ∀ j, matchJsAt (l.drop j) = none := by
  intro j
  by_cases hj : j < l.length
  · exact h j hj
  · rw [List.drop_eq_nil_of_le (Nat.le_of_not_lt hj)]
    exact matchJs_nil

theorem cssPat_head : cssPat.head? = some '.' := by decide

theorem matchCss_sound : Sound matchCssAt := by
  intro l m rest h
  unfold matchCssAt at h
  by_cases htake : l.take 13 = cssPat
  · rw [if_pos htake] at h
    split at h
    · rename_i b bs rest' heq1 heq2
      simp only [Option.some.injEq, Prod.mk.injEq] at h
      obtain ⟨hm, hrest⟩ := h
      subst hm
      subst hrest
      constructor
      · conv_lhs =>
          rw [← List.take_append_drop 13 l, htake,
            ← List.takeWhile_append_dropWhile (fun c => c != '\x7d') (l.drop 13),
            heq1, heq2]
        simp [List.append_assoc]
      · have h13 : cssPat.length = 13 := by decide
        simp only [List.length_append, List.length_cons, h13]
        omega
    · exact Option.noConfusion h
  · rw [if_neg htake] at h
    exact Option.noConfusion h

theorem takeWhile_app (p : Char → Bool) (b : List Char) (x : Char) (r : List Char)
    (hb : ∀ c ∈ b, p c = true) (hx : p x = false) :
    (b ++ x :: r).takeWhile p = b := by
  induction b with
  | nil => simp [List.takeWhile_cons, hx]
  | cons c b' ih =>
    have hc := hb c (by simp)
    simp [List.takeWhile_cons, hc, ih (fun d hd => hb d (by simp [hd]))]

theorem dropWhile_app (p : Char → Bool) (b : List Char) (x : Char) (r : List Char)
    (hb : ∀ c ∈ b, p c = true) (hx : p x = false) :
    (b ++ x :: r).dropWhile p = x :: r := by
  induction b with
  | nil => simp [List.dropWhile_cons, hx]
  | cons c b' ih =>
    have hc := hb c (by simp)
    simp [List.dropWhile_cons, hc, ih (fun d hd => hb d (by simp [hd]))]

theorem matchCss_at_block {b : List Char} (r : List Char) (hb : b ≠ [])
    (hb' : ∀ c ∈ b, c ≠ '\x7d') :
    matchCssAt (cssPat ++ b ++ '\x7d' :: r) = some (cssPat ++ b ++ ['\x7d'], r) := by
  have hp : ∀ c ∈ b, (c != '\x7d') = true := fun c hc => by
    simpa using hb' c hc
  have h13 : cssPat.length = 13 := by decide
  have hdrop : (cssPat ++ b ++ '\x7d' :: r).drop 13 = b ++ '\x7d' :: r := by
    rw [List.append_assoc]
    exact List.drop_left' h13
  unfold matchCssAt
  rw [List.append_assoc, List.take_left' h13, if_pos rfl, ← List.append_assoc, hdrop]
  rw [takeWhile_app _ b '\x7d' r hp (by decide), dropWhile_app _ b '\x7d' r hp (by decide)]
  cases b with
  | nil => exact absurd rfl hb
  | cons c bs => rfl

theorem matchCss_none_head {c : Char} (l : List Char) (h : c ≠ '.') :
    matchCssAt (c :: l) = none := by
  have hne : ¬ ((c :: l).take 13 = cssPat) := by
    intro heq
    have h1 : some c = some '.' := by
      rw [← cssPat_head, ← heq]
      rfl
    injection h1 with h2
    exact h h2
  unfold matchCssAt
  rw [if_neg hne]

theorem matchCss_empty_body (r : List Char) : matchCssAt (cssPat ++ '\x7d' :: r) = none := by
  have h13 : cssPat.length = 13 := by decide
  unfold matchCssAt
  rw [List.take_left' h13, if_pos rfl, List.drop_left' h13]
  rfl

theorem matchCss_nil : matchCssAt [] = none := by decide

theorem cssNoMatchAll (l : List Char) (h : ∀ j, j < l.length → matchCssAt (l.drop j) = none) :
    ∀ j, matchCssAt (l.drop j) = none := by
  intro j
  by_cases hj : j < l.length
  · exact h j hj
  · rw [List.drop_eq_nil_of_le (Nat.le_of_not_lt hj)]
    exact matchCss_nil

theorem cssSkip_mem {w : List Char} (r : List Char) (hw : ∀ c ∈ w, c ≠ '.') :
    ∀ j, j < w.length → matchCssAt ((w ++ r).drop j) = none := by
  intro j hj
  rw [List.drop_append_eq_append_drop, Nat.sub_eq_zero_of_le (Nat.le_of_lt hj),
    List.drop_zero, List.drop_eq_getElem_cons hj, List.cons_append]
  exact matchCss_none_head _ (hw _ (List.getElem_mem hj))

/-! Claim theorems. -/

/-- Claim C6: every text with no occurrence of the `.historyItem{...}`
pattern is returned unchanged by the CSS step, and independently every text
with no occurrence of the script literal is returned unchanged by the script
step; a missing marker is a silent no-op for either step, never an error —
each clause holds regardless of whether the other step's marker is
present. -/
theorem C6_noop_on_miss (t t' : List Char)
    (h1 : ∀ j, matchCssAt (t.drop j) = none)
    (h2 : ∀ j, matchJsAt (t'.drop j) = none) :
    cssStep t = t ∧ jsStep t' = t' :=
  ⟨idealIns_noMatch matchCssAt css_to_add h1, idealIns_noMatch matchJsAt js_to_add h2⟩

theorem C6_noop_on_miss_witness :
    cssStep oldLit = oldLit ∧
    jsStep ".historyItem\x7bcolor:red\x7d".data = ".historyItem\x7bcolor:red\x7d".data :=
  C6_noop_on_miss _ _ (cssNoMatchAll _ (by decide)) (jsNoMatchAll _ (by decide))

/-- Claim C5: if the target file cannot be read, the run terminates with an
I/O error and performs no write, so the file state is returned unchanged. -/
theorem C5_read_failure_atomic (s : FsState) (h : s.content = none) :
    runFix s = (s, Except.error ()) := by
  unfold runFix
  rw [h]

theorem C5_read_failure_atomic_witness :
    runFix (FsState.mk none true) = (FsState.mk none true, Except.error ()) :=
  C5_read_failure_atomic (FsState.mk none true) rfl

/-- Claim C10: the transformation is deterministic: two runs on identical
file contents produce identical file states and identical output, and the
written bytes and confirmation output are a function of the input text and
the fixed injected blocks alone. -/
theorem C10_deterministic (c₁ c₂ : List Char) (h : c₁ = c₂) :
    runFix (FsState.mk (some c₁) true) = runFix (FsState.mk (some c₂) true) ∧
    runFix (FsState.mk (some c₁) true)
      = (FsState.mk (some (transform c₁)) true, Except.ok confirmMsg) := by
  subst h
  exact ⟨rfl, rfl⟩

theorem C10_deterministic_witness :
    runFix (FsState.mk (some "a".data) true) = runFix (FsState.mk (some "a".data) true) ∧
    runFix (FsState.mk (some "a".data) true)
      = (FsState.mk (some (transform "a".data)) true, Except.ok confirmMsg) :=
  C10_deterministic "a".data "a".data rfl

/-- Claim C7: for a file whose content is a fixed point of both steps, the
read-transform-write pipeline writes back content identical to the original
and succeeds. -/
theorem C7_roundtrip_fixed_point (t : List Char) (h1 : cssStep t = t) (h2 : jsStep t = t) :
    runFix (FsState.mk (some t) true) = (FsState.mk (some t) true, Except.ok confirmMsg) := by
  have ht : transform t = t := by
    unfold transform
    rw [h1, h2]
  show (FsState.mk (some (transform t)) true, Except.ok confirmMsg) = _
  rw [ht]

theorem C7_roundtrip_fixed_point_witness :
    runFix (FsState.mk (some "x".data) true)
      = (FsState.mk (some "x".data) true, Except.ok confirmMsg) :=
  C7_roundtrip_fixed_point "x".data (by decide) (by decide)

/-- Claim C8: both transformation steps are insertion-only: the original
text is a subsequence of the output of the CSS step, of the script step, and
of their composition. -/
theorem C8_insertion_only (t : List Char) :
    List.Sublist t (cssStep t) ∧ List.Sublist t (jsStep t) ∧
    List.Sublist t (transform t) := by
  have hc : List.Sublist t (cssStep t) :=
    sublist_idealIns matchCssAt css_to_add matchCss_sound t.length t (Nat.le_refl _)
  have hj : ∀ u, List.Sublist u (jsStep u) := fun u =>
    sublist_idealIns matchJsAt js_to_add matchJs_sound u.length u (Nat.le_refl _)
  exact ⟨hc, hj t, hc.trans (hj (cssStep t))⟩

/-- Claim C3: for a text with exactly one non-nested `.historyItem{...}`
block (no match starts inside the leading context, none occurs in the
trailing context), the CSS step inserts the fixed block immediately after
the matched block and leaves everything else unchanged; in particular the
spec's scenario input ".historyItem{color:red}" yields exactly the spec's
scenario output. -/
theorem C3_css_single_insertion (u b v : List Char)
    (hu : ∀ j, j < u.length → matchCssAt ((u ++ (cssPat ++ b ++ '\x7d' :: v)).drop j) = none)
    (hb : b ≠ []) (hb' : ∀ c ∈ b, c ≠ '\x7d')
    (hv : ∀ j, matchCssAt (v.drop j) = none) :
    cssStep (u ++ (cssPat ++ b ++ '\x7d' :: v))
      = u ++ (cssPat ++ b ++ ['\x7d'] ++ css_to_add ++ v) ∧
    cssStep ".historyItem\x7bcolor:red\x7d".data
      = ".historyItem\x7bcolor:red\x7d\n    .historyItem.older\x7b\n      background: #f8f9fa;\n    \x7d".data := by
  constructor
  · show idealIns matchCssAt css_to_add _ = _
    rw [idealIns_skip matchCssAt css_to_add hu,
      idealIns_match matchCssAt css_to_add matchCss_sound (matchCss_at_block v hb hb'),
      idealIns_noMatch matchCssAt css_to_add hv]
  · decide

theorem C3_css_single_insertion_witness :
    (cssStep ([] ++ (cssPat ++ "color:red".data ++ '\x7d' :: []))
      = [] ++ (cssPat ++ "color:red".data ++ ['\x7d'] ++ css_to_add ++ []) ∧
    cssStep ".historyItem\x7bcolor:red\x7d".data
      = ".historyItem\x7bcolor:red\x7d\n    .historyItem.older\x7b\n      background: #f8f9fa;\n    \x7d".data) :=
  C3_css_single_insertion [] "color:red".data [] (by decide) (by decide) (by decide)
    (cssNoMatchAll [] (by decide))

/-- Claim C4: the CSS step is not idempotent: for a text that is exactly one
non-nested `.historyItem{...}` block, applying the CSS step to the
already-patched output inserts a second copy of the fixed block after the
first (and only) `.historyItem{...}` match, and the injected
`.historyItem.older{...}` block itself is never matched by the pattern. -/
theorem C4_not_idempotent (b : List Char) (hb : b ≠ []) (hb' : ∀ c ∈ b, c ≠ '\x7d') :
    cssStep (cssStep (cssPat ++ b ++ ['\x7d']))
      = cssPat ++ b ++ ['\x7d'] ++ css_to_add ++ css_to_add ∧
    (∀ j, matchCssAt (css_to_add.drop j) = none) := by
  have hnom : ∀ j, matchCssAt (css_to_add.drop j) = none := cssNoMatchAll _ (by decide)
  have h1 : cssStep (cssPat ++ b ++ ['\x7d']) = cssPat ++ b ++ ['\x7d'] ++ css_to_add := by
    show idealIns matchCssAt css_to_add _ = _
    rw [idealIns_match matchCssAt css_to_add matchCss_sound (matchCss_at_block [] hb hb'),
      idealIns_nil]
    simp
  have h2 : cssStep (cssPat ++ b ++ ['\x7d'] ++ css_to_add)
      = cssPat ++ b ++ ['\x7d'] ++ css_to_add ++ css_to_add := by
    have hsh : cssPat ++ b ++ ['\x7d'] ++ css_to_add = cssPat ++ b ++ '\x7d' :: css_to_add := by
      simp [List.append_assoc]
    rw [hsh]
    show idealIns matchCssAt css_to_add _ = _
    rw [idealIns_match matchCssAt css_to_add matchCss_sound
        (matchCss_at_block css_to_add hb hb'),
      idealIns_noMatch matchCssAt css_to_add hnom]
    simp [List.append_assoc]
  exact ⟨by rw [h1, h2], hnom⟩

theorem C4_not_idempotent_witness :
    cssStep (cssStep (cssPat ++ ['a'] ++ ['\x7d']))
      = cssPat ++ ['a'] ++ ['\x7d'] ++ css_to_add ++ css_to_add ∧
    (∀ j, matchCssAt (css_to_add.drop j) = none) :=
  C4_not_idempotent ['a'] (by decide) (by decide)

/-- Claim C9: an empty-body block `.historyItem{}` is not matched by the
regex (whose body is `[^}]+`): for a text whose only `.historyItem{...}`
occurrence is the empty-body block, the CSS step leaves the text
unchanged. -/
theorem C9_empty_body_unmatched (u v : List Char)
    (hu : ∀ j, j < u.length → matchCssAt ((u ++ (cssPat ++ '\x7d' :: v)).drop j) = none)
    (hv : ∀ j, matchCssAt (v.drop j) = none) :
    cssStep (u ++ (cssPat ++ '\x7d' :: v)) = u ++ (cssPat ++ '\x7d' :: v) := by
  show idealIns matchCssAt css_to_add _ = _
  rw [idealIns_skip matchCssAt css_to_add hu]
  congr 1
  have e1 : idealIns matchCssAt css_to_add (cssPat ++ '\x7d' :: v)
      = '.' :: idealIns matchCssAt css_to_add ("historyItem\x7b\x7d".data ++ v) :=
    idealIns_none matchCssAt css_to_add (matchCss_empty_body v)
  have e2 : idealIns matchCssAt css_to_add ("historyItem\x7b\x7d".data ++ v)
      = "historyItem\x7b\x7d".data ++ idealIns matchCssAt css_to_add v :=
    idealIns_skip matchCssAt css_to_add (cssSkip_mem v (by decide))
  rw [e1, e2, idealIns_noMatch matchCssAt css_to_add hv]
  rfl

theorem C9_empty_body_unmatched_witness :
    cssStep ("x".data ++ (cssPat ++ '\x7d' :: [])) = "x".data ++ (cssPat ++ '\x7d' :: []) :=
  C9_empty_body_unmatched "x".data [] (by decide) (cssNoMatchAll [] (by decide))

/-- Claim C1 (as stated) is false on the code: on a text with two
`.historyItem{...}` blocks the CSS step inserts the fixed block after both
matches, so the second occurrence is not left untouched as the claim
requires. -/
theorem C1_counterexample :
    cssStep ".historyItem\x7ba\x7d.historyItem\x7bb\x7d".data
      = ".historyItem\x7ba\x7d".data ++ css_to_add ++ ".historyItem\x7bb\x7d".data
          ++ css_to_add ∧
    cssStep ".historyItem\x7ba\x7d.historyItem\x7bb\x7d".data
      ≠ ".historyItem\x7ba\x7d".data ++ css_to_add ++ ".historyItem\x7bb\x7d".data := by
  constructor
  · decide
  · decide

theorem cssBlock_append (b X : List Char) : cssBlock b ++ X = cssPat ++ b ++ '\x7d' :: X := by
  unfold cssBlock
  simp [List.append_assoc]

/-- Claim C1 amended: the CSS step performs a global substitution: for every
input text, decomposed into context segments around the N (N ≥ 0)
occurrences of the `.historyItem{...}` pattern (no match starting inside a
segment, none in the trailing segment), the fixed CSS block is inserted
immediately after every occurrence, not only after the first, and all other
text is unchanged. -/
theorem C1_amended_global_css : ∀ (qs : List (List Char × List Char)) (tail : List Char),
    CssSegOk qs tail → cssStep (cssJoin qs tail) = cssJoinIns qs tail := by
  intro qs
  induction qs with
  | nil =>
    intro tail h
    exact idealIns_noMatch matchCssAt css_to_add h
  | cons pb rest ih =>
    obtain ⟨p, b⟩ := pb
    intro tail h
    obtain ⟨hp, hb, hb', hrest⟩ := h
    show idealIns matchCssAt css_to_add (cssJoin ((p, b) :: rest) tail) = _
    simp only [cssJoin, cssJoinIns]
    rw [List.append_assoc, idealIns_skip matchCssAt css_to_add hp, cssBlock_append,
      idealIns_match matchCssAt css_to_add matchCss_sound
        (matchCss_at_block (cssJoin rest tail) hb hb'),
      show idealIns matchCssAt css_to_add (cssJoin rest tail) = cssJoinIns rest tail
        from ih tail hrest]
    simp [cssBlock, List.append_assoc]

theorem C1_amended_global_css_witness :
    cssStep (cssJoin [("A".data, ['a']), ("B".data, ['b'])] "C".data)
      = cssJoinIns [("A".data, ['a']), ("B".data, ['b'])] "C".data :=
  C1_amended_global_css [("A".data, ['a']), ("B".data, ['b'])] "C".data
    ⟨by decide, by decide, by decide,
      by decide, by decide, by decide, cssNoMatchAll "C".data (by decide)⟩

/-! Helpers for the script-step global-substitution claim. -/

theorem window_eq {p : List Char} {j : Nat} (hj : j < p.length)
    (hlen : oldLit.length ≤ p.length - j) :
    ((p ++ oldLit).drop j).take oldLit.length = (p.drop j).take oldLit.length := by
  rw [List.drop_append_eq_append_drop, Nat.sub_eq_zero_of_le (Nat.le_of_lt hj),
    List.drop_zero, List.take_append_eq_append_take]
  have h0 : oldLit.length - (p.drop j).length = 0 := by
    rw [List.length_drop]
    omega
  rw [h0, List.take_zero, List.append_nil]

theorem jsNone_within {p : List Char}
    (h : ∀ j, j < p.length → ((p ++ oldLit).drop j).take oldLit.length ≠ oldLit) :
    ∀ j, matchJsAt (p.drop j) = none := by
  apply jsNoMatchAll
  intro j hj
  apply matchJs_none
  intro heq
  have hlen : oldLit.length ≤ p.length - j := by
    have hl := congrArg List.length heq
    simp only [List.length_take, List.length_drop] at hl
    rcases Nat.le_total oldLit.length (p.length - j) with hle | hle
    · exact hle
    · rw [Nat.min_eq_right hle] at hl
      omega
  exact h j hj (by rw [window_eq hj hlen]; exact heq)

theorem window_eq2 {p r : List Char} {j : Nat} (hj : j < p.length) :
    ((p ++ (oldLit ++ r)).drop j).take oldLit.length
      = ((p ++ oldLit).drop j).take oldLit.length := by
  rw [← List.append_assoc, @List.drop_append_eq_append_drop Char (p ++ oldLit) r j]
  have h0 : j - (p ++ oldLit).length = 0 := by
    rw [List.length_append]
    omega
  rw [h0, List.drop_zero, List.take_append_eq_append_take]
  have h1 : oldLit.length - ((p ++ oldLit).drop j).length = 0 := by
    rw [List.length_drop, List.length_append]
    omega
  rw [h1, List.take_zero, List.append_nil]

theorem jsSkip_seg {p : List Char} (r : List Char)
    (h : ∀ j, j < p.length → ((p ++ oldLit).drop j).take oldLit.length ≠ oldLit) :
    idealIns matchJsAt js_to_add (p ++ (oldLit ++ r))
      = p ++ idealIns matchJsAt js_to_add (oldLit ++ r) := by
  apply idealIns_skip
  intro j hj
  apply matchJs_none
  intro heq
  apply h j hj
  rw [← window_eq2 hj]
  exact heq

/-- Claim C2: script-step global substitution: for a text decomposed into
segments separated by the N occurrences of the literal
`row.className = "historyItem";` (no occurrence starting inside a segment),
the script step yields the same segments separated by the literal
immediately followed by the fixed injected block — exactly N insertions and
all other text unchanged; with no occurrence (a one-segment decomposition)
the text is byte-for-byte unchanged. -/
theorem C2_script_global : ∀ ps : List (List Char),
    (∀ p ∈ ps, ∀ j, j < p.length →
      ((p ++ oldLit).drop j).take oldLit.length ≠ oldLit) →
    jsStep (joinWith oldLit ps) = joinWith (oldLit ++ js_to_add) ps := by
  intro ps
  induction ps with
  | nil => intro _; rfl
  | cons p ps ih =>
    intro h
    cases ps with
    | nil =>
      show idealIns matchJsAt js_to_add p = p
      exact idealIns_noMatch _ _ (jsNone_within (h p (List.mem_cons_self p [])))
    | cons q ps' =>
      have hp := h p (List.mem_cons_self p _)
      have hrest := fun p' hp' => h p' (List.mem_cons_of_mem p hp')
      show idealIns matchJsAt js_to_add (joinWith oldLit (p :: q :: ps')) = _
      simp only [joinWith]
      rw [List.append_assoc, jsSkip_seg _ hp,
        idealIns_match matchJsAt js_to_add matchJs_sound (matchJs_at_lit _)]
      rw [show idealIns matchJsAt js_to_add (joinWith oldLit (q :: ps'))
            = joinWith (oldLit ++ js_to_add) (q :: ps') from ih hrest]
      simp [List.append_assoc]

theorem C2_script_global_witness :
    jsStep (joinWith oldLit ["ab".data, "cd".data])
      = joinWith (oldLit ++ js_to_add) ["ab".data, "cd".data] :=
  C2_script_global ["ab".data, "cd".data] (by decide)

end FixHtml
